import Mathlib

set_option maxHeartbeats 1600000

namespace Clippy

/-! Verification development for the three lint analyses of this repository:
the tab-run scanner of `tabs_in_doc_comments.rs`, the `mem_replace` rule group,
and the `option_map_unwrap_or` rule. Machine integers (`u32`) are modelled as
`Nat` with explicit `% 2 ^ 32` where overflow matters, and panics as `none`. -/

/-- The tab character whose runs `get_chunks_of_tabs` scans for. -/
def tab : Char := '\t'

/-- Exclusive upper bound of the `u32` offset counter used by the scanner:
`u32::try_from` succeeds exactly on values below this bound. -/
def U32B : Nat := 4294967296

/-- Wrapping `u32` arithmetic, modelling the unchecked `index + 1` additions
of the scanner (release-mode two's-complement wrap on overflow). -/
def u32Mod (n : Nat) : Nat := n % U32B

/-- Mutable state of the scanner's loop: the `spans` vector, `current_start`,
and the `is_active` tracker, as in `get_chunks_of_tabs`. -/
structure ScanState where
  spans : List (Nat × Nat)
  current_start : Nat
  is_active : Bool

/-- `chars_array.windows(2)` of the source: the list of consecutive
character pairs. -/
def windows2 : List Char → List (Char × Char)
  | a :: b :: rest => (a, b) :: windows2 (b :: rest)
  | _ => []

/-- One iteration of the scanner's `for` loop, at window index `i`.
`none` models the panic of `u32::try_from(index).expect(..)`; the four
branches mirror the source's `match arr` arms in order. -/
def scanStep (i : Nat) (w : Char × Char) (st : ScanState) : Option ScanState :=
  if i < U32B then
    some (if w.1 = tab ∧ w.2 = tab then
      { st with is_active := true }
    else if w.2 = tab then
      { st with is_active := true, current_start := u32Mod (i + 1) }
    else if w.1 = tab then
      { st with is_active := false, spans := st.spans ++ [(st.current_start, u32Mod (i + 1))] }
    else st)
  else none

/-- The scanner's enumerated loop over all width-2 windows. -/
def scanLoop : Nat → ScanState → List (Char × Char) → Option ScanState
  | _, st, [] => some st
  | i, st, w :: ws =>
    match scanStep i w st with
    | some st2 => scanLoop (i + 1) st2 ws
    | none => none

/-- Shallow embedding of `get_chunks_of_tabs` of `tabs_in_doc_comments.rs`:
the `vec!['\t']` special case, the windowed loop, and the final push of a
still-open group (whose `u32::try_from(count)` panic is again `none`). -/
def get_chunks_of_tabs (cs : List Char) : Option (List (Nat × Nat)) :=
  if cs = [tab] then some [(0, 1)]
  else
    match scanLoop 0 ⟨[], 0, false⟩ (windows2 cs) with
    | none => none
    | some st =>
      if st.is_active then
        if cs.length < U32B then some (st.spans ++ [(st.current_start, cs.length)])
        else none
      else some st.spans

/-- The scanner applied to a string, viewed as its character sequence. -/
def scan (s : String) : Option (List (Nat × Nat)) := get_chunks_of_tabs s.data

/-- Pure description of the scanner's loop: given the window index of the
first remaining character, `current_start` and `is_active`, returns the
spans the loop emits on the remaining characters together with the final
`current_start` and `is_active`. -/
def loopSpec : Nat → Nat → Bool → List Char → List (Nat × Nat) × Nat × Bool
  | i, start, active, a :: b :: rest =>
    if a = tab ∧ b = tab then loopSpec (i + 1) start true (b :: rest)
    else if b = tab then loopSpec (i + 1) (u32Mod (i + 1)) true (b :: rest)
    else if a = tab then
      let r := loopSpec (i + 1) start false (b :: rest)
      ((start, u32Mod (i + 1)) :: r.1, r.2)
    else loopSpec (i + 1) start active (b :: rest)
  | _, start, active, _ => ([], start, active)

/-- End-to-end pure description of the scanner (no panic modelling). -/
def chunksSpec (cs : List Char) : List (Nat × Nat) :=
  if cs = [tab] then [(0, 1)]
  else
    let r := loopSpec 0 0 false cs
    if r.2.2 then r.1 ++ [(r.2.1, cs.length)] else r.1

/-- Offset `k` is covered by one of the half-open runs in `spans`. -/
def coversPos (spans : List (Nat × Nat)) (k : Nat) : Prop :=
  ∃ p ∈ spans, p.1 ≤ k ∧ k < p.2

/-- The character at offset `k` of `cs` exists and is the tab character. -/
def tabAt (cs : List Char) (k : Nat) : Prop :=
  k < cs.length ∧ cs.getD k ' ' = tab

/-- Replace every character of `cs` sitting at an offset covered by `spans`
(offsets counted from `k`) with the spacer character `sp`; characters at
uncovered offsets are kept, so lengths are preserved. -/
def replaceRuns (sp : Char) (spans : List (Nat × Nat)) : Nat → List Char → List Char
  | _, [] => []
  | k, c :: rest =>
    (if spans.any (fun p => decide (p.1 ≤ k ∧ k < p.2)) then sp else c) ::
      replaceRuns sp spans (k + 1) rest

/-- An input on which the scanner's unchecked `u32` additions overflow: a
string of `2 ^ 32 + 1` characters whose final tab run closes at character
position `2 ^ 32`, which wraps to `0` in the emitted span. -/
def pathologicalInput : List Char := List.replicate (U32B - 1) 'a' ++ [tab, 'b']

/-- Offset `k` is the position (counted from window index `i`) of a tab
character of the remaining text `l`. -/
def tabIn (l : List Char) (i k : Nat) : Prop :=
  ∃ j, j < l.length ∧ l.getD j ' ' = tab ∧ k = i + j

/-- Loop invariant of the scanner, at the point where the first remaining
character `l.head` sits at window index `i`: when a run is open its start is
recorded and the current character is a tab; when no run is open but the
current character is a tab, we are at the very first window (where the
initial `current_start = 0` is load-bearing) and at least one window exists. -/
def ScanInv (i s0 : Nat) (active : Bool) (l : List Char) : Prop :=
  (active = true → l.head? = some tab ∧ s0 ≤ i) ∧
  (active = false → l.head? = some tab → s0 = i ∧ 2 ≤ l.length)

/-- Lower bound on the start offset of every span the remaining loop emits. -/
def scanLB (i s0 : Nat) (active : Bool) (l : List Char) : Nat :=
  if active = true then s0 else if l.head? = some tab then i else i + 1

/-- Span of the HIR model: half-open byte interval plus an opaque
expansion-context tag. -/
structure Span where
  lo : Nat
  hi : Nat
  ctxt : Nat
deriving DecidableEq

/-- `Span::with_lo`: same span with its low offset replaced. -/
def Span.withLo (s : Span) (l : Nat) : Span := ⟨l, s.hi, s.ctxt⟩

/-- `Span::with_hi`: same span with its high offset replaced. -/
def Span.withHi (s : Span) (h : Nat) : Span := ⟨s.lo, h, s.ctxt⟩

/-- Canonical path of a declaration, value-compared against the fixed table
of interesting paths (spec section 3). -/
abbrev DefPath := List String

/-- Modelled from the spec: entry of the injected canonical-path table for
the generic value-swap operation (the `paths` module is not under `src/`). -/
def MEM_REPLACE : DefPath := ["core", "mem", "replace"]

/-- Modelled from the spec: canonical path of "produce uninitialized value". -/
def MEM_UNINITIALIZED : DefPath := ["core", "mem", "uninitialized"]

/-- Modelled from the spec: canonical path of "produce zero-filled value". -/
def MEM_ZEROED : DefPath := ["core", "mem", "zeroed"]

/-- Modelled from the spec: canonical path of the default constructor. -/
def DEFAULT_TRAIT_METHOD : DefPath := ["core", "default", "Default", "default"]

/-- Modelled from the spec: canonical path of the absent-option constant. -/
def OPTION_NONE : DefPath := ["core", "option", "Option", "None"]

/-- Borrow kinds of the HIR model (`BorrowKind::Ref` / `BorrowKind::Raw`). -/
inductive BorrowKind where
  | ref
  | raw

/-- Mutability of a borrow (`Mutability::Mut` / `Mutability::Not`). -/
inductive Mutability where
  | mut
  | not

/-- Qualified path of the HIR model: a resolved path with a flag recording
whether a self-type qualifier is present (`QPath::Resolved(Some _ / None, ..)`),
or some other qualified-path form. -/
inductive QPath where
  | resolved (hasSelfTy : Bool) (segments : List String)
  | other

/-- Tree node of the parsed program representation (spec section 3): the
expression kinds the three rules inspect, plus a generic `other` node whose
children are still walked by the identifier collector. -/
inductive Expr where
  | call (func : Expr) (args : List Expr) (sp : Span)
  | path (q : QPath) (sp : Span)
  | addrOf (bk : BorrowKind) (m : Mutability) (e : Expr) (sp : Span)
  | closure (body : Expr) (sp : Span)
  | lit (sp : Span)
  | other (children : List Expr) (sp : Span)

/-- The span attached to a tree node. -/
def Expr.span : Expr → Span
  | .call _ _ sp => sp
  | .path _ sp => sp
  | .addrOf _ _ _ sp => sp
  | .closure _ sp => sp
  | .lit sp => sp
  | .other _ sp => sp

/-- Applicability grade of a suggested auto-fix. -/
inductive Applicability where
  | machineApplicable
  | maybeIncorrect
  | hasPlaceholders
  | unspecified
deriving DecidableEq

/-- A lint: its name and the severity group it was declared with. -/
structure Lint where
  name : String
  severity : String
deriving DecidableEq

/-- Lint declared in `mem_replace.rs` with severity group `style`. -/
def MEM_REPLACE_OPTION_WITH_NONE : Lint := ⟨"MEM_REPLACE_OPTION_WITH_NONE", "style"⟩

/-- Lint declared in `mem_replace.rs` with severity group `correctness`. -/
def MEM_REPLACE_WITH_UNINIT : Lint := ⟨"MEM_REPLACE_WITH_UNINIT", "correctness"⟩

/-- Lint declared in `mem_replace.rs` with severity group `style`. -/
def MEM_REPLACE_WITH_DEFAULT : Lint := ⟨"MEM_REPLACE_WITH_DEFAULT", "style"⟩

/-- Modelled from the spec: the map-then-unwrap-or lint constant (declared in
`methods/mod.rs`, which is not under `src/`); its severity is irrelevant to
the claims. -/
def OPTION_MAP_UNWRAP_OR : Lint := ⟨"OPTION_MAP_UNWRAP_OR", "pedantic"⟩

/-- One (span, replacement-text) edit of a suggestion. -/
structure Edit where
  sp : Span
  text : String
deriving DecidableEq

/-- A finding handed to the Finding Reporter: location, message, optional
help/suggestion label, its edits in source order, and an applicability grade
(`none` when no auto-fix is offered). -/
structure Finding where
  lint : Lint
  sp : Span
  msg : String
  help : Option String
  edits : List Edit
  applicability : Option Applicability
deriving DecidableEq

/-- Modelled from the spec: the injected external collaborators of section 6 —
the symbol-resolution oracle, static-type queries, snippet retrieval and the
expansion-context predicates. The analysed code treats all of them as
read-only lookups. -/
structure Context where
  qpathRes : QPath → Option DefPath
  isPrimitive : Expr → Bool
  snippet : Span → String
  inExternalExpansion : Span → Bool
  inExpansion : Span → Bool
  isOptionTy : Expr → Bool
  isCopy : Expr → Bool
  differingExpCtxts : Span → Span → Bool

/-- Modelled from the spec: `match_path` of the `utils` module (not under
`src/`), which compares the written path's segment names with the canonical
segments from the rear, so a bare `None` matches the canonical absent-option
constant. -/
def match_path_segs (path : List String) (segments : List String) : Bool :=
  (path.reverse.zip segments.reverse).all fun p => p.1 == p.2

/-- Modelled from the spec: `match_qpath` of the `utils` module (not under
`src/`): syntactic match of a qualified path against canonical segments. -/
def match_qpath (q : QPath) (segments : List String) : Bool :=
  match q with
  | .resolved _ path => match_path_segs path segments
  | .other => false

/-- The `dest` analysis of `check_replace_option_with_none`: strip at most one
mutable borrow, then require a bare resolved path without self-type qualifier;
returns the span of that path (`replaced_path` in the source). -/
def replacedPathSpan : Expr → Option Span
  | .addrOf .ref .mut replaced _ =>
    match replaced with
    | .path (.resolved false _) sp => some sp
    | _ => none
  | .path (.resolved false _) sp => some sp
  | _ => none

/-- Shallow embedding of `check_replace_option_with_none` of `mem_replace.rs`:
`src` must be a path matching the absent-option constant, `dest` must pass
`replacedPathSpan`; emits one machine-applicable suggestion replacing the whole
call with `<dest>.take()`. -/
def check_replace_option_with_none (cx : Context) (src dest : Expr) (expr_span : Span) :
    List Finding :=
  match src with
  | .path replacement_qpath _ =>
    if match_qpath replacement_qpath OPTION_NONE then
      match replacedPathSpan dest with
      | some psp =>
        [⟨MEM_REPLACE_OPTION_WITH_NONE, expr_span,
          "replacing an `Option` with `None`",
          some "consider `Option::take()` instead",
          [⟨expr_span, cx.snippet psp ++ ".take()"⟩],
          some .machineApplicable⟩]
      | none => []
    else []
  | _ => []

/-- Shallow embedding of `check_replace_with_uninit` of `mem_replace.rs`:
`src` must be a zero-argument call whose callee resolves to the
produce-uninitialized path (always flagged) or the produce-zeroed path
(flagged only when the static type of `src` is not primitive); both findings
are message-plus-help only, with no suggested edit. -/
def check_replace_with_uninit (cx : Context) (src : Expr) (expr_span : Span) :
    List Finding :=
  match src with
  | .call repl_func repl_args _ =>
    if repl_args.isEmpty then
      match repl_func with
      | .path repl_func_qpath _ =>
        match cx.qpathRes repl_func_qpath with
        | some repl_def_id =>
          if repl_def_id = MEM_UNINITIALIZED then
            [⟨MEM_REPLACE_WITH_UNINIT, expr_span,
              "replacing with `mem::uninitialized()`",
              some "consider using the `take_mut` crate instead",
              [], none⟩]
          else if repl_def_id = MEM_ZEROED ∧ ¬cx.isPrimitive src then
            [⟨MEM_REPLACE_WITH_UNINIT, expr_span,
              "replacing with `mem::zeroed()`",
              some "consider using a default value or the `take_mut` crate instead",
              [], none⟩]
          else []
        | none => []
      | _ => []
    else []
  | _ => []

/-- Shallow embedding of `check_replace_with_default` of `mem_replace.rs`:
`src` must be a call (any argument count) whose callee resolves to the default
constructor and the call site must not come from an external expansion; the
`take(<dest-snippet>)` edit is attached only when the span is not from any
expansion, otherwise the finding is message-only. -/
def check_replace_with_default (cx : Context) (src dest : Expr) (expr_span : Span) :
    List Finding :=
  match src with
  | .call repl_func _ _ =>
    if ¬cx.inExternalExpansion expr_span then
      match repl_func with
      | .path repl_func_qpath _ =>
        match cx.qpathRes repl_func_qpath with
        | some repl_def_id =>
          if repl_def_id = DEFAULT_TRAIT_METHOD then
            if ¬cx.inExpansion expr_span then
              [⟨MEM_REPLACE_WITH_DEFAULT, expr_span,
                "replacing a value of type `T` with `T::default()` is better expressed using `std::mem::take`",
                some "consider using",
                [⟨expr_span, "std::mem::take(" ++ cx.snippet dest.span ++ ")"⟩],
                some .machineApplicable⟩]
            else
              [⟨MEM_REPLACE_WITH_DEFAULT, expr_span,
                "replacing a value of type `T` with `T::default()` is better expressed using `std::mem::take`",
                none, [], none⟩]
          else []
        | none => []
      | _ => []
    else []
  | _ => []

/-- Shallow embedding of `MemReplace::check_expr`: the node must be a call
whose callee resolves to the value-swap path with exactly two arguments
`[dest, src]`; the three checks then run in declaration order. -/
def MemReplace_check_expr (cx : Context) (expr : Expr) : List Finding :=
  match expr with
  | .call func func_args expr_sp =>
    match func with
    | .path func_qpath _ =>
      match cx.qpathRes func_qpath with
      | some def_id =>
        if def_id = MEM_REPLACE then
          match func_args with
          | [dest, src] =>
            check_replace_option_with_none cx src dest expr_sp ++
              check_replace_with_uninit cx src expr_sp ++
              check_replace_with_default cx src dest expr_sp
          | _ => []
        else []
      | none => []
    | _ => []
  | _ => []

/-- `ident` of `option_map_unwrap_or.rs`: the last path segment's name. -/
def identOf (segments : List String) : String := segments.getLastD ""

/-- The names contributed by one path node to the identifier set. -/
def pathIdents : QPath → List String
  | .resolved _ segments => [identOf segments]
  | .other => []

mutual

/-- The Identifier-Set Collector (`UnwrapVisitor` of `option_map_unwrap_or.rs`):
walks every descendant node and records the last path segment of every name
reference, with no knowledge of scoping. -/
def collectIdents : Expr → List String
  | .call f args _ => collectIdents f ++ collectIdentsList args
  | .path q _ => pathIdents q
  | .addrOf _ _ e _ => collectIdents e
  | .closure body _ => collectIdents body
  | .lit _ => []
  | .other children _ => collectIdentsList children

/-- Identifier collection over a list of sibling nodes. -/
def collectIdentsList : List Expr → List String
  | [] => []
  | e :: es => collectIdents e ++ collectIdentsList es

end

/-- `MapExprVisitor` of `option_map_unwrap_or.rs`: whether some name referenced
in the map argument also occurs in the identifier set collected from the
unwrap-or argument. -/
def sharedIdent (map_arg unwrap_arg : Expr) : Bool :=
  (collectIdents map_arg).any fun i => (collectIdents unwrap_arg).contains i

/-- Placeholder node for out-of-range argument access (the external caller
always supplies receiver and argument, so it is never reached in the claims). -/
def dummyExpr : Expr := .other [] ⟨0, 0, 0⟩

/-- Shallow embedding of `lint` of `option_map_unwrap_or.rs`: the copy-safety
identifier guard, the differing-expansion-contexts guard, the classification
of the default snippet against the literal text "None", and the multi-edit
suggestion construction. -/
def option_map_unwrap_or_lint (cx : Context) (expr : Expr)
    (map_args unwrap_args : List Expr) (map_span : Span) : List Finding :=
  let map_recv := map_args.getD 0 dummyExpr
  let map_arg := map_args.getD 1 dummyExpr
  let unwrap_recv := unwrap_args.getD 0 dummyExpr
  let unwrap_arg := unwrap_args.getD 1 dummyExpr
  if cx.isOptionTy map_recv then
    if !cx.isCopy unwrap_arg && sharedIdent map_arg unwrap_arg then []
    else if cx.differingExpCtxts unwrap_arg.span map_span then []
    else
      let unwrap_snippet := cx.snippet unwrap_arg.span
      let arg := if unwrap_snippet = "None" then "None" else "a"
      let suggest := if unwrap_snippet = "None" then "and_then(f)" else "map_or(a, f)"
      let msg := "called `map(f).unwrap_or(" ++ arg ++
        ")` on an Option value. This can be done more directly by calling `" ++
        suggest ++ "` instead"
      let map_arg_span := map_arg.span
      let base : List Edit :=
        [⟨map_span, if unwrap_snippet = "None" then "and_then" else "map_or"⟩,
         ⟨expr.span.withLo unwrap_recv.span.hi, ""⟩]
      let suggestion :=
        if unwrap_snippet = "None" then base
        else base ++ [⟨map_arg_span.withHi map_arg_span.lo, unwrap_snippet ++ ", "⟩]
      [⟨OPTION_MAP_UNWRAP_OR, expr.span, msg,
        some ("use `" ++ suggest ++ "` instead"), suggestion, some .machineApplicable⟩]
  else []

/-- A concrete span with context tag `0`, for the executable fixtures. -/
def cSpan (a b : Nat) : Span := ⟨a, b, 0⟩

/-- Fixture resolution oracle: a resolved qualified path denotes exactly its
written segments. -/
def testRes : QPath → Option DefPath
  | .resolved _ segs => some segs
  | .other => none

/-- Fixture snippet oracle: source text of the spans used by the fixtures. -/
def testSnippet : Span → String := fun sp =>
  if sp = cSpan 10 11 then "x"
  else if sp = cSpan 20 21 then "0"
  else if sp = cSpan 5 11 then "text"
  else "snip"

/-- Fixture context: resolution by `testRes`, snippets by `testSnippet`, no
expansion anywhere, every receiver an option, every type copyable and
non-primitive. -/
def testCx : Context :=
  ⟨testRes, fun _ => false, testSnippet, fun _ => false, fun _ => false,
   fun _ => true, fun _ => true, fun _ _ => false⟩

/-- Fixture context whose default-value type is not trivially duplicable. -/
def testCxNoCopy : Context := { testCx with isCopy := fun _ => false }

/-- Fixture context whose types are all primitive. -/
def testCxPrim : Context := { testCx with isPrimitive := fun _ => true }

/-- Fixture context whose spans all come from a (local) expansion. -/
def testCxExp : Context := { testCx with inExpansion := fun _ => true }

/-- The qualified path of the value-swap function, as written at the fixtures'
call sites. -/
def fqMemReplace : QPath := .resolved false MEM_REPLACE

/-- Fixture destination: the bare local binding `x`. -/
def wDestPath : Expr := .path (.resolved false ["x"]) (cSpan 10 11)

/-- Fixture destination: `&mut x`. -/
def wDestBorrow : Expr := .addrOf .ref .mut wDestPath (cSpan 5 11)

/-- Fixture destination: `&mut v[i]` (an indexing expression, not a bare
name reference, under the mutable borrow). -/
def wIndexDest : Expr := .addrOf .ref .mut (.other [] (cSpan 10 14)) (cSpan 5 14)

/-- Fixture source: the bare absent-option constant `None`. -/
def wSrcNone : Expr := .path (.resolved false ["None"]) (cSpan 30 34)

/-- Fixture source: a call to the default constructor. -/
def wSrcDefault : Expr :=
  .call (.path (.resolved false DEFAULT_TRAIT_METHOD) (cSpan 30 40)) [] (cSpan 30 42)

/-- Fixture source: a zero-argument call to produce-uninitialized. -/
def wSrcUninit : Expr :=
  .call (.path (.resolved false MEM_UNINITIALIZED) (cSpan 30 40)) [] (cSpan 30 42)

/-- Fixture source: a zero-argument call to produce-zeroed. -/
def wSrcZeroed : Expr :=
  .call (.path (.resolved false MEM_ZEROED) (cSpan 30 40)) [] (cSpan 30 42)

/-- Fixture value-swap call `replace(dest, src)` spanning offsets 0 to 44. -/
def wCall (dest src : Expr) : Expr :=
  .call (.path fqMemReplace (cSpan 0 3)) [dest, src] (cSpan 0 44)

/-- Fixture whole expression `opt.map(|v| ..).unwrap_or(0)`, offsets 0-30. -/
def cExpr : Expr := .other [] (cSpan 0 30)

/-- Fixture receiver of `map`. -/
def cRecv : Expr := .other [] (cSpan 0 3)

/-- Fixture closure argument of `map`, its body referencing `y`. -/
def cMapArg : Expr := .closure (.path (.resolved false ["y"]) (cSpan 11 14)) (cSpan 10 15)

/-- Fixture receiver of `unwrap_or`, i.e. `opt.map(|v| ..)`, offsets 0-10. -/
def cURecv : Expr := .other [] (cSpan 0 10)

/-- Fixture default-value argument of `unwrap_or`: the literal `0` at 20-21. -/
def cUArg : Expr := .lit (cSpan 20 21)

/-- Fixture default-value argument that references the name `y`, which the
fixture closure body also references. -/
def cUArgShared : Expr := .path (.resolved false ["y"]) (cSpan 20 21)

/-- Fixture span of the `map` method-name token. -/
def cMapSpan : Span := cSpan 4 7

/-- The finding the embedded map-then-unwrap-or rule produces on the
fixtures (default snippet `"0"`, hence the `map_or` form). -/
def cFinding : Finding :=
  ⟨OPTION_MAP_UNWRAP_OR, cSpan 0 30,
   "called `map(f).unwrap_or(a)` on an Option value. This can be done more directly by calling `map_or(a, f)` instead",
   some "use `map_or(a, f)` instead",
   [⟨cSpan 4 7, "map_or"⟩, ⟨cSpan 10 30, ""⟩, ⟨cSpan 10 10, "0, "⟩],
   some .machineApplicable⟩

theorem u32Mod_eq_of_lt {n : Nat} (h : n < U32B) : u32Mod n = n := Nat.mod_eq_of_lt h

theorem loopSpec_nil (i s0 : Nat) (active : Bool) :
    loopSpec i s0 active [] = ([], s0, active) := rfl

theorem loopSpec_single (i s0 : Nat) (active : Bool) (c : Char) :
    loopSpec i s0 active [c] = ([], s0, active) := rfl

theorem loopSpec_cons_cons (i s0 : Nat) (active : Bool) (a b : Char) (rest : List Char) :
    loopSpec i s0 active (a :: b :: rest) =
      if a = tab ∧ b = tab then loopSpec (i + 1) s0 true (b :: rest)
      else if b = tab then loopSpec (i + 1) (u32Mod (i + 1)) true (b :: rest)
      else if a = tab then
        ((s0, u32Mod (i + 1)) :: (loopSpec (i + 1) s0 false (b :: rest)).1,
          (loopSpec (i + 1) s0 false (b :: rest)).2)
      else loopSpec (i + 1) s0 active (b :: rest) := rfl

theorem coversPos_nil (k : Nat) : ¬ coversPos [] k := by simp [coversPos]

theorem coversPos_cons {p : Nat × Nat} {spans : List (Nat × Nat)} {k : Nat} :
    coversPos (p :: spans) k ↔ (p.1 ≤ k ∧ k < p.2) ∨ coversPos spans k := by
  simp [coversPos, or_and_right, exists_or]

theorem coversPos_append {s t : List (Nat × Nat)} {k : Nat} :
    coversPos (s ++ t) k ↔ coversPos s k ∨ coversPos t k := by
  simp [coversPos, List.mem_append, or_and_right, exists_or]

theorem tabIn_nil (i k : Nat) : ¬ tabIn [] i k := by simp [tabIn]

theorem tabIn_cons {a : Char} {l : List Char} {i k : Nat} :
    tabIn (a :: l) i k ↔ (a = tab ∧ k = i) ∨ tabIn l (i + 1) k := by
  constructor
  · rintro ⟨j, hj, htab, hk⟩
    cases j with
    | zero => exact Or.inl ⟨by simpa using htab, by omega⟩
    | succ j =>
      refine Or.inr ⟨j, by simpa using hj, by simpa using htab, by omega⟩
  · rintro (⟨ht, hk⟩ | ⟨j, hj, ht, hk⟩)
    · exact ⟨0, by simp, by simpa using ht, by omega⟩
    · exact ⟨j + 1, by simpa using hj, by simpa using ht, by omega⟩

theorem tabIn_zero {l : List Char} {k : Nat} : tabIn l 0 k ↔ tabAt l k := by
  constructor
  · rintro ⟨j, hj, ht, hk⟩
    exact ⟨by omega, by subst hk; simpa using ht⟩
  · rintro ⟨hk, ht⟩
    exact ⟨k, hk, ht, by omega⟩

theorem scanInv_init (cs : List Char) (h : cs ≠ [tab]) : ScanInv 0 0 false cs := by
  refine ⟨by simp, fun _ hhead => ⟨rfl, ?_⟩⟩
  cases cs with
  | nil => simp at hhead
  | cons c t =>
    cases t with
    | nil =>
      simp at hhead
      exact absurd (by rw [hhead]) h
    | cons d u => simp

theorem scanStep_some_lt {i : Nat} {w : Char × Char} {st st2 : ScanState}
    (h : scanStep i w st = some st2) : i < U32B := by
  by_contra hi
  simp [scanStep, hi] at h

theorem scanLoop_none_of_big : ∀ (l : List Char) (i : Nat) (st : ScanState),
    i ≤ U32B → U32B + 2 ≤ i + l.length → scanLoop i st (windows2 l) = none
  | [], i, st, hi, hbig => by simp at hbig; omega
  | [c], i, st, hi, hbig => by simp at hbig; omega
  | a :: b :: rest, i, st, hi, hbig => by
    show scanLoop i st ((a, b) :: windows2 (b :: rest)) = none
    cases hstep : scanStep i (a, b) st with
    | none => simp [scanLoop, hstep]
    | some st2 =>
      have hlt : i < U32B := scanStep_some_lt hstep
      simp only [scanLoop, hstep]
      exact scanLoop_none_of_big (b :: rest) (i + 1) st2 (by omega)
        (by simp at hbig ⊢; omega)

theorem scanLoop_isSome : ∀ (l : List Char) (i : Nat) (st : ScanState),
    i + l.length ≤ U32B + 1 → (scanLoop i st (windows2 l)).isSome
  | [], _, _, _ => by simp [windows2, scanLoop]
  | [c], _, _, _ => by simp [windows2, scanLoop]
  | a :: b :: rest, i, st, hle => by
    have hlt : i < U32B := by simp at hle; omega
    show (scanLoop i st ((a, b) :: windows2 (b :: rest))).isSome
    cases hstep : scanStep i (a, b) st with
    | none => simp [scanStep, hlt] at hstep
    | some st2 =>
      simp only [scanLoop, hstep]
      exact scanLoop_isSome (b :: rest) (i + 1) st2 (by simp at hle ⊢; omega)

theorem scanLoop_eq_some : ∀ (l : List Char) (i : Nat) (sp : List (Nat × Nat))
    (s0 : Nat) (a0 : Bool) (st' : ScanState),
    scanLoop i ⟨sp, s0, a0⟩ (windows2 l) = some st' →
    st' = ⟨sp ++ (loopSpec i s0 a0 l).1, (loopSpec i s0 a0 l).2.1, (loopSpec i s0 a0 l).2.2⟩
  | [], i, sp, s0, a0, st', h => by
    simp [windows2, scanLoop] at h
    simp [loopSpec_nil, ← h]
  | [c], i, sp, s0, a0, st', h => by
    simp [windows2, scanLoop] at h
    simp [loopSpec_single, ← h]
  | a :: b :: rest, i, sp, s0, a0, st', h => by
    replace h : scanLoop i ⟨sp, s0, a0⟩ ((a, b) :: windows2 (b :: rest)) = some st' := h
    cases hstep : scanStep i (a, b) ⟨sp, s0, a0⟩ with
    | none => simp [scanLoop, hstep] at h
    | some st2 =>
      have hlt : i < U32B := scanStep_some_lt hstep
      simp only [scanLoop, hstep] at h
      rw [scanStep, if_pos hlt] at hstep
      by_cases h1 : a = tab ∧ b = tab
      · rw [if_pos h1] at hstep
        simp only [Option.some_inj] at hstep
        subst hstep
        rw [loopSpec_cons_cons, if_pos h1]
        exact scanLoop_eq_some (b :: rest) (i + 1) sp s0 true st' h
      · rw [if_neg h1] at hstep
        by_cases h2 : b = tab
        · rw [if_pos h2] at hstep
          simp only [Option.some_inj] at hstep
          subst hstep
          rw [loopSpec_cons_cons, if_neg h1, if_pos h2]
          exact scanLoop_eq_some (b :: rest) (i + 1) sp (u32Mod (i + 1)) true st' h
        · rw [if_neg h2] at hstep
          by_cases h3 : a = tab
          · rw [if_pos h3] at hstep
            simp only [Option.some_inj] at hstep
            subst hstep
            rw [loopSpec_cons_cons, if_neg h1, if_neg h2, if_pos h3]
            have := scanLoop_eq_some (b :: rest) (i + 1)
              (sp ++ [(s0, u32Mod (i + 1))]) s0 false st' h
            rw [this]
            simp
          · rw [if_neg h3] at hstep
            simp only [Option.some_inj] at hstep
            subst hstep
            rw [loopSpec_cons_cons, if_neg h1, if_neg h2, if_neg h3]
            exact scanLoop_eq_some (b :: rest) (i + 1) sp s0 a0 st' h

theorem loopSpec_no_tab : ∀ (l : List Char) (i s0 : Nat),
    (∀ c ∈ l, c ≠ tab) → loopSpec i s0 false l = ([], s0, false)
  | [], _, _, _ => rfl
  | [c], _, _, _ => rfl
  | a :: b :: rest, i, s0, h => by
    have ha : a ≠ tab := h a (by simp)
    have hb : b ≠ tab := h b (by simp)
    rw [loopSpec_cons_cons, if_neg (by tauto), if_neg hb, if_neg ha]
    exact loopSpec_no_tab (b :: rest) (i + 1) s0 (fun c hc => h c (by simp at hc ⊢; tauto))

theorem loopSpec_replicate : ∀ (n : Nat) (c : Char) (l : List Char) (i s0 : Nat),
    c ≠ tab →
    loopSpec i s0 false (List.replicate (n + 1) c ++ l) = loopSpec (i + n) s0 false (c :: l)
  | 0, c, l, i, s0, _ => by simp
  | n + 1, c, l, i, s0, hc => by
    have hrw : List.replicate (n + 2) c ++ l = c :: (List.replicate (n + 1) c ++ l) := by
      simp [List.replicate_succ]
    rw [hrw]
    have hrw2 : List.replicate (n + 1) c ++ l = c :: (List.replicate n c ++ l) := by
      simp [List.replicate_succ]
    rw [hrw2, loopSpec_cons_cons, if_neg (by tauto), if_neg hc, if_neg hc, ← hrw2]
    rw [loopSpec_replicate n c l (i + 1) s0 hc]
    congr 1
    omega

theorem loopSpec_order : ∀ (l : List Char) (i s0 : Nat) (active : Bool) (T : Nat),
    T = i + l.length → i + l.length ≤ U32B → ScanInv i s0 active l →
    (∀ p ∈ (loopSpec i s0 active l).1, p.1 < p.2) ∧
    List.Pairwise (fun p q => p.2 < q.1) (loopSpec i s0 active l).1 ∧
    (∀ p ∈ (loopSpec i s0 active l).1, scanLB i s0 active l ≤ p.1) ∧
    ((loopSpec i s0 active l).2.2 = true →
      (∀ p ∈ (loopSpec i s0 active l).1, p.2 < (loopSpec i s0 active l).2.1) ∧
      (loopSpec i s0 active l).2.1 < T ∧
      scanLB i s0 active l ≤ (loopSpec i s0 active l).2.1)
  | [], i, s0, active, T, hT, hB, hInv => by
    refine ⟨by simp [loopSpec_nil], by simp [loopSpec_nil], by simp [loopSpec_nil], ?_⟩
    intro ha
    simp only [loopSpec_nil] at ha
    rcases hInv.1 ha with ⟨hh, -⟩
    simp at hh
  | [c], i, s0, active, T, hT, hB, hInv => by
    refine ⟨by simp [loopSpec_single], by simp [loopSpec_single], by simp [loopSpec_single], ?_⟩
    intro ha
    simp only [loopSpec_single] at ha ⊢
    rcases hInv.1 ha with ⟨-, hs⟩
    simp only [List.length_cons, List.length_nil] at hT
    exact ⟨by simp, by omega, by simp [scanLB, ha]⟩
  | a :: b :: rest, i, s0, active, T, hT, hB, hInv => by
    have hT' : T = (i + 1) + (b :: rest).length := by
      simp only [List.length_cons] at hT ⊢; omega
    have hB' : (i + 1) + (b :: rest).length ≤ U32B := by
      simp only [List.length_cons] at hB ⊢; omega
    have hlt : i + 1 < U32B := by simp only [List.length_cons] at hB; omega
    have hmod : u32Mod (i + 1) = i + 1 := u32Mod_eq_of_lt hlt
    by_cases h1 : a = tab ∧ b = tab
    · rw [loopSpec_cons_cons, if_pos h1]
      have hs0 : s0 ≤ i := by
        cases active with
        | true => exact (hInv.1 rfl).2
        | false => have h0 := hInv.2 rfl (by simp [h1.1]); omega
      have hInv' : ScanInv (i + 1) s0 true (b :: rest) :=
        ⟨fun _ => ⟨by simp [h1.2], by omega⟩, by simp⟩
      have IH := loopSpec_order (b :: rest) (i + 1) s0 true T hT' hB' hInv'
      have hrecLB : scanLB (i + 1) s0 true (b :: rest) = s0 := by simp [scanLB]
      rw [hrecLB] at IH
      have hLB : scanLB i s0 active (a :: b :: rest) ≤ s0 := by
        cases active with
        | true => simp [scanLB]
        | false =>
          have h0 := hInv.2 rfl (by simp [h1.1])
          simp [scanLB, h1.1]
          omega
      obtain ⟨IH1, IH2, IH3, IH4⟩ := IH
      refine ⟨IH1, IH2, fun p hp => le_trans hLB (IH3 p hp), fun ha2 => ?_⟩
      rcases IH4 ha2 with ⟨he, hltT, hsb⟩
      exact ⟨he, hltT, le_trans hLB hsb⟩
    · by_cases h2 : b = tab
      · have hane : a ≠ tab := fun hh => h1 ⟨hh, h2⟩
        have hact : active = false := by
          cases active with
          | false => rfl
          | true =>
            rcases hInv.1 rfl with ⟨hh, -⟩
            simp only [List.head?_cons, Option.some_inj] at hh
            exact absurd hh hane
        subst hact
        rw [loopSpec_cons_cons, if_neg h1, if_pos h2, hmod]
        have hInv' : ScanInv (i + 1) (i + 1) true (b :: rest) :=
          ⟨fun _ => ⟨by simp [h2], le_refl _⟩, by simp⟩
        have IH := loopSpec_order (b :: rest) (i + 1) (i + 1) true T hT' hB' hInv'
        have hrecLB : scanLB (i + 1) (i + 1) true (b :: rest) = i + 1 := by simp [scanLB]
        rw [hrecLB] at IH
        have hLB : scanLB i s0 false (a :: b :: rest) = i + 1 := by
          simp [scanLB, hane]
        rw [hLB]
        exact IH
      · by_cases h3 : a = tab
        · rw [loopSpec_cons_cons, if_neg h1, if_neg h2, if_pos h3, hmod]
          dsimp only
          have hs0 : s0 ≤ i := by
            cases active with
            | true => exact (hInv.1 rfl).2
            | false => have h0 := hInv.2 rfl (by simp [h3]); omega
          have hInv' : ScanInv (i + 1) s0 false (b :: rest) :=
            ⟨by simp, fun _ hh => absurd (by simpa using hh) h2⟩
          have IH := loopSpec_order (b :: rest) (i + 1) s0 false T hT' hB' hInv'
          have hrecLB : scanLB (i + 1) s0 false (b :: rest) = i + 2 := by
            simp [scanLB, h2]
          rw [hrecLB] at IH
          obtain ⟨IH1, IH2, IH3, IH4⟩ := IH
          have hLB : scanLB i s0 active (a :: b :: rest) ≤ s0 := by
            cases active with
            | true => simp [scanLB]
            | false =>
              have h0 := hInv.2 rfl (by simp [h3])
              simp [scanLB, h3]
              omega
          refine ⟨?_, ?_, ?_, ?_⟩
          · intro p hp
            rcases List.mem_cons.mp hp with rfl | hp'
            · show s0 < i + 1; omega
            · exact IH1 p hp'
          · refine List.pairwise_cons.mpr ⟨?_, IH2⟩
            intro q hq
            have := IH3 q hq
            show i + 1 < q.1
            omega
          · intro p hp
            rcases List.mem_cons.mp hp with rfl | hp'
            · show scanLB i s0 active (a :: b :: rest) ≤ s0; exact hLB
            · have := IH3 p hp'; omega
          · intro ha2
            rcases IH4 ha2 with ⟨he, hltT, hsb⟩
            refine ⟨?_, hltT, by omega⟩
            intro p hp
            rcases List.mem_cons.mp hp with rfl | hp'
            · show i + 1 < (loopSpec (i + 1) s0 false (b :: rest)).2.1; omega
            · exact he p hp'
        · have hact : active = false := by
            cases active with
            | false => rfl
            | true =>
              rcases hInv.1 rfl with ⟨hh, -⟩
              simp only [List.head?_cons, Option.some_inj] at hh
              exact absurd hh h3
          subst hact
          rw [loopSpec_cons_cons, if_neg h1, if_neg h2, if_neg h3]
          have hInv' : ScanInv (i + 1) s0 false (b :: rest) :=
            ⟨by simp, fun _ hh => absurd (by simpa using hh) h2⟩
          have IH := loopSpec_order (b :: rest) (i + 1) s0 false T hT' hB' hInv'
          have hrecLB : scanLB (i + 1) s0 false (b :: rest) = i + 2 := by
            simp [scanLB, h2]
          have hLB : scanLB i s0 false (a :: b :: rest) = i + 1 := by
            simp [scanLB, h3]
          rw [hrecLB] at IH
          rw [hLB]
          obtain ⟨IH1, IH2, IH3, IH4⟩ := IH
          refine ⟨IH1, IH2, fun p hp => by have := IH3 p hp; omega, fun ha2 => ?_⟩
          rcases IH4 ha2 with ⟨he, hltT, hsb⟩
          exact ⟨he, hltT, by omega⟩

theorem loopSpec_cover : ∀ (l : List Char) (i s0 : Nat) (active : Bool) (T : Nat),
    T = i + l.length → i + l.length ≤ U32B → ScanInv i s0 active l → ∀ k : Nat,
    (coversPos (loopSpec i s0 active l).1 k ∨
      ((loopSpec i s0 active l).2.2 = true ∧ (loopSpec i s0 active l).2.1 ≤ k ∧ k < T)) ↔
    ((active = true ∧ s0 ≤ k ∧ k < i) ∨ tabIn l i k)
  | [], i, s0, active, T, hT, hB, hInv, k => by
    cases active with
    | true =>
      rcases hInv.1 rfl with ⟨hh, -⟩
      simp at hh
    | false =>
      simp [loopSpec_nil, coversPos_nil, tabIn_nil]
  | [c], i, s0, active, T, hT, hB, hInv, k => by
    simp only [List.length_cons, List.length_nil] at hT
    cases active with
    | true =>
      rcases hInv.1 rfl with ⟨hh, hs⟩
      have hc : c = tab := by simpa using hh
      rw [loopSpec_single]
      dsimp only
      rw [tabIn_cons]
      simp [coversPos_nil, tabIn_nil, hc]
      omega
    | false =>
      have hc : c ≠ tab := by
        intro hc
        rcases hInv.2 rfl (by simp [hc]) with ⟨-, h2⟩
        simp at h2
      rw [loopSpec_single]
      dsimp only
      rw [tabIn_cons]
      simp [coversPos_nil, tabIn_nil, hc]
  | a :: b :: rest, i, s0, active, T, hT, hB, hInv, k => by
    have hT' : T = (i + 1) + (b :: rest).length := by
      simp only [List.length_cons] at hT ⊢; omega
    have hB' : (i + 1) + (b :: rest).length ≤ U32B := by
      simp only [List.length_cons] at hB ⊢; omega
    have hlt : i + 1 < U32B := by simp only [List.length_cons] at hB; omega
    have hmod : u32Mod (i + 1) = i + 1 := u32Mod_eq_of_lt hlt
    rw [tabIn_cons]
    by_cases h1 : a = tab ∧ b = tab
    · rw [loopSpec_cons_cons, if_pos h1]
      cases active with
      | true =>
        have hs0 := (hInv.1 rfl).2
        have hInv' : ScanInv (i + 1) s0 true (b :: rest) :=
          ⟨fun _ => ⟨by simp [h1.2], by omega⟩, by simp⟩
        rw [loopSpec_cover (b :: rest) (i + 1) s0 true T hT' hB' hInv' k]
        simp [h1.1]
        have harith : (s0 ≤ k ∧ k < i + 1) ↔ ((s0 ≤ k ∧ k < i) ∨ k = i) := by omega
        tauto
      | false =>
        have h0 := hInv.2 rfl (by simp [h1.1])
        have hInv' : ScanInv (i + 1) s0 true (b :: rest) :=
          ⟨fun _ => ⟨by simp [h1.2], by omega⟩, by simp⟩
        rw [loopSpec_cover (b :: rest) (i + 1) s0 true T hT' hB' hInv' k]
        simp [h1.1]
        have harith : (s0 ≤ k ∧ k < i + 1) ↔ k = i := by omega
        tauto
    · by_cases h2 : b = tab
      · have hane : a ≠ tab := fun hh => h1 ⟨hh, h2⟩
        have hact : active = false := by
          cases active with
          | false => rfl
          | true =>
            rcases hInv.1 rfl with ⟨hh, -⟩
            simp only [List.head?_cons, Option.some_inj] at hh
            exact absurd hh hane
        subst hact
        rw [loopSpec_cons_cons, if_neg h1, if_pos h2, hmod]
        have hInv' : ScanInv (i + 1) (i + 1) true (b :: rest) :=
          ⟨fun _ => ⟨by simp [h2], le_refl _⟩, by simp⟩
        rw [loopSpec_cover (b :: rest) (i + 1) (i + 1) true T hT' hB' hInv' k]
        simp [hane]
      · by_cases h3 : a = tab
        · rw [loopSpec_cons_cons, if_neg h1, if_neg h2, if_pos h3, hmod]
          dsimp only
          rw [coversPos_cons]
          dsimp only
          have hInv' : ScanInv (i + 1) s0 false (b :: rest) :=
            ⟨by simp, fun _ hh => absurd (by simpa using hh) h2⟩
          rw [or_assoc, loopSpec_cover (b :: rest) (i + 1) s0 false T hT' hB' hInv' k]
          simp [h3]
          cases active with
          | true =>
            have hs0 := (hInv.1 rfl).2
            have harith : (s0 ≤ k ∧ k < i + 1) ↔ ((s0 ≤ k ∧ k < i) ∨ k = i) := by omega
            tauto
          | false =>
            have h0 := hInv.2 rfl (by simp [h3])
            have harith : (s0 ≤ k ∧ k < i + 1) ↔ k = i := by omega
            tauto
        · have hact : active = false := by
            cases active with
            | false => rfl
            | true =>
              rcases hInv.1 rfl with ⟨hh, -⟩
              simp only [List.head?_cons, Option.some_inj] at hh
              exact absurd hh h3
          subst hact
          rw [loopSpec_cons_cons, if_neg h1, if_neg h2, if_neg h3]
          have hInv' : ScanInv (i + 1) s0 false (b :: rest) :=
            ⟨by simp, fun _ hh => absurd (by simpa using hh) h2⟩
          rw [loopSpec_cover (b :: rest) (i + 1) s0 false T hT' hB' hInv' k]
          simp [h3]

theorem chunksSpec_props (cs : List Char) (hlen : cs.length ≤ U32B) :
    (∀ p ∈ chunksSpec cs, p.1 < p.2) ∧
    List.Pairwise (fun p q => p.2 < q.1) (chunksSpec cs) ∧
    (∀ k, coversPos (chunksSpec cs) k ↔ tabAt cs k) := by
  by_cases hcs : cs = [tab]
  · subst hcs
    have hself : chunksSpec [tab] = [(0, 1)] := rfl
    refine ⟨by simp [hself], by simp [hself], ?_⟩
    intro k
    rw [hself, coversPos_cons]
    cases k with
    | zero => simp [coversPos_nil, tabAt, tab]
    | succ n => simp [coversPos_nil, tabAt]
  · have hInv := scanInv_init cs hcs
    have hT : cs.length = 0 + cs.length := by omega
    have hB : 0 + cs.length ≤ U32B := by omega
    have hcover := loopSpec_cover cs 0 0 false cs.length hT hB hInv
    obtain ⟨hA, hP, hD, hC⟩ := loopSpec_order cs 0 0 false cs.length hT hB hInv
    unfold chunksSpec
    rw [if_neg hcs]
    dsimp only
    by_cases hact : (loopSpec 0 0 false cs).2.2 = true
    · rw [if_pos hact]
      rcases hC hact with ⟨hends, hstart, -⟩
      refine ⟨?_, ?_, ?_⟩
      · intro p hp
        rcases List.mem_append.mp hp with hp' | hp'
        · exact hA p hp'
        · simp only [List.mem_singleton] at hp'
          subst hp'
          exact hstart
      · refine (List.pairwise_append).mpr ⟨hP, by simp, ?_⟩
        intro p hp q hq
        simp only [List.mem_singleton] at hq
        subst hq
        exact hends p hp
      · intro k
        rw [coversPos_append]
        have hsing : coversPos [((loopSpec 0 0 false cs).2.1, cs.length)] k ↔
            ((loopSpec 0 0 false cs).2.1 ≤ k ∧ k < cs.length) := by
          rw [coversPos_cons]
          simp [coversPos_nil]
        rw [hsing, ← tabIn_zero]
        have hck := hcover k
        simp only [hact, true_and] at hck
        simpa using hck
    · rw [if_neg hact]
      refine ⟨hA, hP, ?_⟩
      intro k
      rw [← tabIn_zero]
      have hck := hcover k
      simp only [hact, false_and, or_false] at hck
      simpa using hck

theorem get_eq_chunksSpec {cs : List Char} {spans : List (Nat × Nat)}
    (h : get_chunks_of_tabs cs = some spans) : spans = chunksSpec cs := by
  by_cases hcs : cs = [tab]
  · subst hcs
    rw [show get_chunks_of_tabs [tab] = some [(0, 1)] from rfl] at h
    rw [show chunksSpec [tab] = [(0, 1)] from rfl]
    exact (Option.some_inj.mp h).symm
  · unfold get_chunks_of_tabs at h
    rw [if_neg hcs] at h
    unfold chunksSpec
    rw [if_neg hcs]
    dsimp only
    cases hsl : scanLoop 0 ⟨[], 0, false⟩ (windows2 cs) with
    | none => rw [hsl] at h; simp at h
    | some st =>
      rw [hsl] at h
      have hst := scanLoop_eq_some cs 0 [] 0 false st hsl
      subst hst
      dsimp only at h
      by_cases hact : (loopSpec 0 0 false cs).2.2 = true
      · rw [if_pos hact] at h ⊢
        by_cases hl : cs.length < U32B
        · rw [if_pos hl] at h
          simp only [Option.some_inj, List.nil_append] at h
          exact h.symm
        · rw [if_neg hl] at h
          simp at h
      · rw [if_neg hact] at h ⊢
        simp only [Option.some_inj, List.nil_append] at h
        exact h.symm

theorem get_no_tab {cs : List Char} (h : ∀ c ∈ cs, c ≠ tab)
    (hlen : cs.length ≤ U32B + 1) : get_chunks_of_tabs cs = some [] := by
  have hcs : cs ≠ [tab] := by
    intro hcs
    subst hcs
    exact absurd rfl (h tab (by simp))
  unfold get_chunks_of_tabs
  rw [if_neg hcs]
  have hS := scanLoop_isSome cs 0 ⟨[], 0, false⟩ (by omega)
  cases hsl : scanLoop 0 ⟨[], 0, false⟩ (windows2 cs) with
  | none => rw [hsl] at hS; simp at hS
  | some st =>
    have hst := scanLoop_eq_some cs 0 [] 0 false st hsl
    rw [loopSpec_no_tab cs 0 0 h] at hst
    subst hst
    simp

theorem get_some_length {cs : List Char} {spans : List (Nat × Nat)}
    (h : get_chunks_of_tabs cs = some spans) : cs.length ≤ U32B + 1 := by
  by_contra hb
  push_neg at hb
  have hcs : cs ≠ [tab] := by
    intro hcs
    subst hcs
    simp only [List.length_cons, List.length_nil] at hb
    omega
  unfold get_chunks_of_tabs at h
  rw [if_neg hcs, scanLoop_none_of_big cs 0 ⟨[], 0, false⟩ (by omega) (by omega)] at h
  simp at h

theorem replaceRuns_length (sp : Char) (spans : List (Nat × Nat)) :
    ∀ (cs : List Char) (k : Nat), (replaceRuns sp spans k cs).length = cs.length
  | [], _ => rfl
  | c :: rest, k => by
    simp [replaceRuns, replaceRuns_length sp spans rest (k + 1)]

theorem replaceRuns_no_tab (sp : Char) (spans : List (Nat × Nat)) (hsp : sp ≠ tab) :
    ∀ (cs : List Char) (k : Nat),
    (∀ j, j < cs.length → cs.getD j ' ' = tab →
      spans.any (fun p => decide (p.1 ≤ k + j ∧ k + j < p.2)) = true) →
    ∀ c ∈ replaceRuns sp spans k cs, c ≠ tab
  | [], k, hcov => by simp [replaceRuns]
  | c :: rest, k, hcov => by
    have hrw : replaceRuns sp spans k (c :: rest) =
        (if spans.any (fun p => decide (p.1 ≤ k ∧ k < p.2)) then sp else c) ::
          replaceRuns sp spans (k + 1) rest := rfl
    intro x hx
    rw [hrw] at hx
    rcases List.mem_cons.mp hx with rfl | hx'
    · by_cases hc : spans.any (fun p => decide (p.1 ≤ k ∧ k < p.2)) = true
      · rw [if_pos hc]
        exact hsp
      · rw [if_neg hc]
        intro hctab
        exact hc (by simpa using hcov 0 (by simp) (by simpa using hctab))
    · refine replaceRuns_no_tab sp spans hsp rest (k + 1) ?_ x hx'
      intro j hj ht
      have hh := hcov (j + 1) (by simp only [List.length_cons]; omega) (by simpa using ht)
      have heq : k + (j + 1) = (k + 1) + j := by omega
      rw [heq] at hh
      exact hh

theorem replaceRuns_id (sp : Char) (spans : List (Nat × Nat))
    (h : ∀ m, spans.any (fun p => decide (p.1 ≤ m ∧ m < p.2)) = false) :
    ∀ (cs : List Char) (k : Nat), replaceRuns sp spans k cs = cs
  | [], _ => rfl
  | c :: rest, k => by
    have hrw : replaceRuns sp spans k (c :: rest) =
        (if spans.any (fun p => decide (p.1 ≤ k ∧ k < p.2)) then sp else c) ::
          replaceRuns sp spans (k + 1) rest := rfl
    rw [hrw, h k, replaceRuns_id sp spans h rest (k + 1)]
    simp

theorem coversPos_any {spans : List (Nat × Nat)} {m : Nat} :
    spans.any (fun p => decide (p.1 ≤ m ∧ m < p.2)) = true ↔ coversPos spans m := by
  simp [coversPos, List.any_eq_true]

theorem loopSpec_pathological :
    loopSpec 0 0 false pathologicalInput = ([(U32B - 1, 0)], U32B - 1, false) := by
  have hU : U32B = 4294967296 := rfl
  have e0 : U32B - 1 = (U32B - 2) + 1 := by omega
  have h1 : pathologicalInput = List.replicate ((U32B - 2) + 1) 'a' ++ [tab, 'b'] := by
    unfold pathologicalInput
    rw [e0]
  rw [h1, loopSpec_replicate (U32B - 2) 'a' [tab, 'b'] 0 0 (by decide)]
  have e1 : 0 + (U32B - 2) = U32B - 2 := by omega
  rw [e1, loopSpec_cons_cons, if_neg (by decide), if_pos rfl]
  have e2 : U32B - 2 + 1 = U32B - 1 := by omega
  rw [e2, u32Mod_eq_of_lt (by omega), loopSpec_cons_cons,
    if_neg (by decide), if_neg (by decide), if_pos rfl]
  have e3 : U32B - 1 + 1 = U32B := by omega
  rw [e3, loopSpec_single]
  have e4 : u32Mod U32B = 0 := Nat.mod_self U32B
  rw [e4]

theorem pathological_eval :
    get_chunks_of_tabs pathologicalInput = some [(U32B - 1, 0)] := by
  have hU : U32B = 4294967296 := rfl
  have hlen : pathologicalInput.length = U32B + 1 := by
    unfold pathologicalInput
    rw [List.length_append, List.length_replicate]
    simp only [List.length_cons, List.length_nil]
    omega
  have hcs : pathologicalInput ≠ [tab] := by
    intro hh
    rw [hh] at hlen
    simp only [List.length_cons, List.length_nil] at hlen
    omega
  unfold get_chunks_of_tabs
  rw [if_neg hcs]
  have hS := scanLoop_isSome pathologicalInput 0 ⟨[], 0, false⟩ (by omega)
  cases hsl : scanLoop 0 ⟨[], 0, false⟩ (windows2 pathologicalInput) with
  | none => rw [hsl] at hS; simp at hS
  | some st =>
    have hst := scanLoop_eq_some pathologicalInput 0 [] 0 false st hsl
    rw [loopSpec_pathological] at hst
    subst hst
    simp

/-- C1 (amended): for every string of at most `2 ^ 32` characters, the runs
returned by the tab-run scanner are half-open pairs with `end > start`, listed
in increasing start order, pairwise non-overlapping and maximal (consecutive
runs are separated by a non-tab offset), and the union of their covered
offsets is exactly the set of character positions holding the tab character. -/
theorem tab_scanner_runs_correct (cs : List Char) (spans : List (Nat × Nat))
    (hlen : cs.length ≤ U32B) (h : get_chunks_of_tabs cs = some spans) :
    (∀ p ∈ spans, p.1 < p.2) ∧
    List.Pairwise (fun p q : Nat × Nat => p.2 < q.1) spans ∧
    (∀ k, coversPos spans k ↔ tabAt cs k) := by
  obtain rfl := get_eq_chunksSpec h
  exact chunksSpec_props cs hlen

theorem tab_scanner_runs_correct_witness :
    List.length ['a', tab] ≤ U32B ∧
    get_chunks_of_tabs ['a', tab] = some [(1, 2)] ∧
    (∀ p ∈ [((1 : Nat), (2 : Nat))], p.1 < p.2) ∧
    List.Pairwise (fun p q : Nat × Nat => p.2 < q.1) [((1 : Nat), (2 : Nat))] ∧
    (∀ k, coversPos [(1, 2)] k ↔ tabAt ['a', tab] k) :=
  ⟨by decide, by decide,
   (tab_scanner_runs_correct ['a', tab] [(1, 2)] (by decide) (by decide)).1,
   (tab_scanner_runs_correct ['a', tab] [(1, 2)] (by decide) (by decide)).2.1,
   (tab_scanner_runs_correct ['a', tab] [(1, 2)] (by decide) (by decide)).2.2⟩

/-- C1 (counterexample): on the `2 ^ 32 + 1`-character input whose final tab
run closes at position `2 ^ 32`, the scanner completes and emits the span
`(2 ^ 32 - 1, 0)`, whose end is not greater than its start — so the claim is
false for strings longer than the `u32` offset range. -/
theorem tab_scanner_runs_counterexample :
    get_chunks_of_tabs pathologicalInput = some [(U32B - 1, 0)] ∧
    ¬ (U32B - 1 < (0 : Nat)) :=
  ⟨pathological_eval, by omega⟩

/-- C8 (amended): for every string of at most `2 ^ 32` characters, replacing
every character inside each returned run with a non-tab spacer character and
re-scanning yields an empty list of runs. -/
theorem tab_scanner_roundtrip (cs : List Char) (spans : List (Nat × Nat)) (sp : Char)
    (hsp : sp ≠ tab) (hlen : cs.length ≤ U32B)
    (h : get_chunks_of_tabs cs = some spans) :
    get_chunks_of_tabs (replaceRuns sp spans 0 cs) = some [] := by
  obtain rfl := get_eq_chunksSpec h
  apply get_no_tab
  · apply replaceRuns_no_tab sp _ hsp cs 0
    intro j hj ht
    rw [coversPos_any]
    exact ((chunksSpec_props cs hlen).2.2 (0 + j)).mpr ⟨by omega, by simpa using ht⟩
  · rw [replaceRuns_length]
    omega

theorem tab_scanner_roundtrip_witness :
    (' ' ≠ tab) ∧ List.length ['a', tab, 'b'] ≤ U32B ∧
    get_chunks_of_tabs ['a', tab, 'b'] = some [(1, 2)] ∧
    get_chunks_of_tabs (replaceRuns ' ' [(1, 2)] 0 ['a', tab, 'b']) = some [] :=
  ⟨by decide, by decide, by decide,
   tab_scanner_roundtrip ['a', tab, 'b'] [(1, 2)] ' ' (by decide) (by decide) (by decide)⟩

/-- C8 (counterexample): on the `2 ^ 32 + 1`-character pathological input the
scanner returns the single wrapped span `(2 ^ 32 - 1, 0)`, which covers no
offset at all, so the replacement leaves the text unchanged and re-scanning
does not yield an empty list of runs. -/
theorem tab_scanner_roundtrip_counterexample :
    get_chunks_of_tabs pathologicalInput = some [(U32B - 1, 0)] ∧
    replaceRuns ' ' [(U32B - 1, 0)] 0 pathologicalInput = pathologicalInput ∧
    get_chunks_of_tabs (replaceRuns ' ' [(U32B - 1, 0)] 0 pathologicalInput) ≠ some [] := by
  have hid : replaceRuns ' ' [(U32B - 1, 0)] 0 pathologicalInput = pathologicalInput :=
    replaceRuns_id ' ' [(U32B - 1, 0)] (fun m => by simp) pathologicalInput 0
  refine ⟨pathological_eval, hid, ?_⟩
  rw [hid, pathological_eval]
  simp

/-- C9 (amended): every input whose character count fits in the `u32` offset
counter is scanned without failure; every input longer than `2 ^ 32 + 1`
characters makes the scanner signal a hard failure (panic); boundary lengths
`2 ^ 32` and `2 ^ 32 + 1` are not always failures. -/
theorem tab_scanner_overflow_amended :
    (∀ cs : List Char, cs.length < U32B → (get_chunks_of_tabs cs).isSome) ∧
    (∀ cs : List Char, U32B + 2 ≤ cs.length → get_chunks_of_tabs cs = none) := by
  constructor
  · intro cs hlen
    by_cases hcs : cs = [tab]
    · subst hcs
      decide
    · unfold get_chunks_of_tabs
      rw [if_neg hcs]
      have hS := scanLoop_isSome cs 0 ⟨[], 0, false⟩ (by omega)
      cases hsl : scanLoop 0 ⟨[], 0, false⟩ (windows2 cs) with
      | none => rw [hsl] at hS; simp at hS
      | some st =>
        by_cases hact : st.is_active = true
        · simp [hact, hlen]
        · simp [hact]
  · intro cs hlen
    have hcs : cs ≠ [tab] := by
      intro hh
      rw [hh] at hlen
      simp only [List.length_cons, List.length_nil] at hlen
      omega
    unfold get_chunks_of_tabs
    rw [if_neg hcs, scanLoop_none_of_big cs 0 ⟨[], 0, false⟩ (by omega) (by omega)]

theorem tab_scanner_overflow_amended_witness :
    (get_chunks_of_tabs ['a']).isSome ∧
    get_chunks_of_tabs (List.replicate (U32B + 2) 'a') = none :=
  ⟨tab_scanner_overflow_amended.1 ['a'] (by decide),
   tab_scanner_overflow_amended.2 (List.replicate (U32B + 2) 'a') (by simp)⟩

/-- C9 (counterexample): a `2 ^ 32`-character tab-free input exceeds the
32-bit offset-counter range (`u32` maximum is `2 ^ 32 - 1`) yet the scanner
completes without failure, returning no runs — so not every over-range input
signals a hard failure. -/
theorem tab_scanner_overflow_counterexample :
    (List.replicate U32B 'a').length = U32B ∧
    get_chunks_of_tabs (List.replicate U32B 'a') = some [] := by
  refine ⟨by simp, ?_⟩
  apply get_no_tab
  · intro c hc
    rw [List.eq_of_mem_replicate hc]
    decide
  · simp

/-- C7: the tab-run scanner satisfies the six concrete cases recorded in the
spec: `scan "" = []`, `scan "\t" = [(0,1)]`, `scan "\t\t" = [(0,2)]`,
`scan "sd\tasd\t\taa" = [(2,3),(6,8)]`, `scan "aa\t\t" = [(2,4)]` and
`scan "dsfs" = []`. -/
theorem tab_scanner_concrete_cases :
    scan "" = some [] ∧
    scan "\t" = some [(0, 1)] ∧
    scan "\t\t" = some [(0, 2)] ∧
    scan "sd\tasd\t\taa" = some [(2, 3), (6, 8)] ∧
    scan "aa\t\t" = some [(2, 4)] ∧
    scan "dsfs" = some [] := by
  refine ⟨?_, ?_, ?_, ?_, ?_, ?_⟩ <;> decide

/-- C3: for a call resolving to the value-swap path with arguments
`[dest, src]` where `src` is a bare reference matching the absent-option
constant: when `dest`, after stripping at most one mutable borrow, is a bare
unqualified name reference, exactly one finding is produced whose single edit
replaces the full call span with `<dest-name>.take()` at machine-applicable
applicability; when `dest` fails that shape analysis, no finding at all is
produced. -/
theorem replace_option_with_none_correct (cx : Context) (fq q : QPath)
    (segs : List String) (fsp ssp psp dsp expr_sp : Span)
    (h1 : cx.qpathRes fq = some MEM_REPLACE)
    (h2 : match_qpath q OPTION_NONE = true) :
    (MemReplace_check_expr cx
        (.call (.path fq fsp)
          [.addrOf .ref .mut (.path (.resolved false segs) psp) dsp, .path q ssp] expr_sp) =
      [⟨MEM_REPLACE_OPTION_WITH_NONE, expr_sp, "replacing an `Option` with `None`",
        some "consider `Option::take()` instead",
        [⟨expr_sp, cx.snippet psp ++ ".take()"⟩], some .machineApplicable⟩]) ∧
    (MemReplace_check_expr cx
        (.call (.path fq fsp) [.path (.resolved false segs) psp, .path q ssp] expr_sp) =
      [⟨MEM_REPLACE_OPTION_WITH_NONE, expr_sp, "replacing an `Option` with `None`",
        some "consider `Option::take()` instead",
        [⟨expr_sp, cx.snippet psp ++ ".take()"⟩], some .machineApplicable⟩]) ∧
    (∀ dest : Expr, replacedPathSpan dest = none →
      MemReplace_check_expr cx (.call (.path fq fsp) [dest, .path q ssp] expr_sp) = []) := by
  refine ⟨?_, ?_, ?_⟩
  · simp [MemReplace_check_expr, h1, check_replace_option_with_none, h2,
      replacedPathSpan, check_replace_with_uninit, check_replace_with_default]
  · simp [MemReplace_check_expr, h1, check_replace_option_with_none, h2,
      replacedPathSpan, check_replace_with_uninit, check_replace_with_default]
  · intro dest hdest
    simp [MemReplace_check_expr, h1, check_replace_option_with_none, h2, hdest,
      check_replace_with_uninit, check_replace_with_default]

theorem replace_option_with_none_witness :
    (MemReplace_check_expr testCx (wCall wDestBorrow wSrcNone) =
      [⟨MEM_REPLACE_OPTION_WITH_NONE, cSpan 0 44, "replacing an `Option` with `None`",
        some "consider `Option::take()` instead",
        [⟨cSpan 0 44, testCx.snippet (cSpan 10 11) ++ ".take()"⟩],
        some .machineApplicable⟩]) ∧
    MemReplace_check_expr testCx (wCall wIndexDest wSrcNone) = [] :=
  ⟨(replace_option_with_none_correct testCx fqMemReplace (.resolved false ["None"])
      ["x"] (cSpan 0 3) (cSpan 30 34) (cSpan 10 11) (cSpan 5 11) (cSpan 0 44)
      rfl (by decide)).1,
   (replace_option_with_none_correct testCx fqMemReplace (.resolved false ["None"])
      ["x"] (cSpan 0 3) (cSpan 30 34) (cSpan 10 11) (cSpan 5 11) (cSpan 0 44)
      rfl (by decide)).2.2 wIndexDest rfl⟩

/-- C4: for a value-swap call whose `src` is a call resolving to the default
constructor: outside any expansion context the finding carries the single
machine-applicable edit replacing the whole expression with
`std::mem::take(<dest-snippet>)`; inside (local) macro-expanded text the
finding is still produced but message-only, with no edit attached. -/
theorem replace_with_default_expansion (cx : Context) (fq rq : QPath)
    (fsp rsp ssp expr_sp : Span) (rargs : List Expr) (dest : Expr)
    (h1 : cx.qpathRes fq = some MEM_REPLACE)
    (h2 : cx.qpathRes rq = some DEFAULT_TRAIT_METHOD) :
    (cx.inExternalExpansion expr_sp = false → cx.inExpansion expr_sp = false →
      MemReplace_check_expr cx
          (.call (.path fq fsp) [dest, .call (.path rq rsp) rargs ssp] expr_sp) =
        [⟨MEM_REPLACE_WITH_DEFAULT, expr_sp,
          "replacing a value of type `T` with `T::default()` is better expressed using `std::mem::take`",
          some "consider using",
          [⟨expr_sp, "std::mem::take(" ++ cx.snippet dest.span ++ ")"⟩],
          some .machineApplicable⟩]) ∧
    (cx.inExternalExpansion expr_sp = false → cx.inExpansion expr_sp = true →
      MemReplace_check_expr cx
          (.call (.path fq fsp) [dest, .call (.path rq rsp) rargs ssp] expr_sp) =
        [⟨MEM_REPLACE_WITH_DEFAULT, expr_sp,
          "replacing a value of type `T` with `T::default()` is better expressed using `std::mem::take`",
          none, [], none⟩]) := by
  have d1 : ¬(DEFAULT_TRAIT_METHOD = MEM_UNINITIALIZED) := by decide
  have d2 : ¬(DEFAULT_TRAIT_METHOD = MEM_ZEROED) := by decide
  constructor
  · intro hx hm
    simp [MemReplace_check_expr, h1, check_replace_option_with_none,
      check_replace_with_uninit, check_replace_with_default, h2, d1, d2, hx, hm]
  · intro hx hm
    simp [MemReplace_check_expr, h1, check_replace_option_with_none,
      check_replace_with_uninit, check_replace_with_default, h2, d1, d2, hx, hm]

theorem replace_with_default_expansion_witness :
    (MemReplace_check_expr testCx (wCall wDestBorrow wSrcDefault) =
      [⟨MEM_REPLACE_WITH_DEFAULT, cSpan 0 44,
        "replacing a value of type `T` with `T::default()` is better expressed using `std::mem::take`",
        some "consider using",
        [⟨cSpan 0 44, "std::mem::take(" ++ testCx.snippet wDestBorrow.span ++ ")"⟩],
        some .machineApplicable⟩]) ∧
    (MemReplace_check_expr testCxExp (wCall wDestBorrow wSrcDefault) =
      [⟨MEM_REPLACE_WITH_DEFAULT, cSpan 0 44,
        "replacing a value of type `T` with `T::default()` is better expressed using `std::mem::take`",
        none, [], none⟩]) :=
  ⟨(replace_with_default_expansion testCx fqMemReplace
      (.resolved false DEFAULT_TRAIT_METHOD) (cSpan 0 3) (cSpan 30 40) (cSpan 30 42)
      (cSpan 0 44) [] wDestBorrow rfl rfl).1 rfl rfl,
   (replace_with_default_expansion testCxExp fqMemReplace
      (.resolved false DEFAULT_TRAIT_METHOD) (cSpan 0 3) (cSpan 30 40) (cSpan 30 42)
      (cSpan 0 44) [] wDestBorrow rfl rfl).2 rfl rfl⟩

/-- C5: for a value-swap call with arguments `[dest, src]` where `src` is a
zero-argument call: resolving to produce-uninitialized yields one finding of
the correctness-severity lint with no edit and no applicability, regardless of
the primitiveness oracle; resolving to produce-zeroed yields such a finding
exactly when the static type of `src` is not primitive, and no finding when it
is primitive. -/
theorem replace_with_uninit_zeroed (cx : Context) (fq rq : QPath)
    (fsp rsp ssp expr_sp : Span) (dest : Expr)
    (h1 : cx.qpathRes fq = some MEM_REPLACE) :
    (cx.qpathRes rq = some MEM_UNINITIALIZED →
      MemReplace_check_expr cx
          (.call (.path fq fsp) [dest, .call (.path rq rsp) [] ssp] expr_sp) =
        [⟨MEM_REPLACE_WITH_UNINIT, expr_sp, "replacing with `mem::uninitialized()`",
          some "consider using the `take_mut` crate instead", [], none⟩] ∧
      MEM_REPLACE_WITH_UNINIT.severity = "correctness") ∧
    (cx.qpathRes rq = some MEM_ZEROED →
      cx.isPrimitive (.call (.path rq rsp) [] ssp) = false →
      MemReplace_check_expr cx
          (.call (.path fq fsp) [dest, .call (.path rq rsp) [] ssp] expr_sp) =
        [⟨MEM_REPLACE_WITH_UNINIT, expr_sp, "replacing with `mem::zeroed()`",
          some "consider using a default value or the `take_mut` crate instead", [], none⟩] ∧
      MEM_REPLACE_WITH_UNINIT.severity = "correctness") ∧
    (cx.qpathRes rq = some MEM_ZEROED →
      cx.isPrimitive (.call (.path rq rsp) [] ssp) = true →
      MemReplace_check_expr cx
          (.call (.path fq fsp) [dest, .call (.path rq rsp) [] ssp] expr_sp) = []) := by
  have d1 : ¬(MEM_UNINITIALIZED = DEFAULT_TRAIT_METHOD) := by decide
  have d2 : ¬(MEM_ZEROED = DEFAULT_TRAIT_METHOD) := by decide
  have d3 : ¬(MEM_ZEROED = MEM_UNINITIALIZED) := by decide
  refine ⟨?_, ?_, ?_⟩
  · intro h2
    refine ⟨?_, rfl⟩
    simp [MemReplace_check_expr, h1, check_replace_option_with_none,
      check_replace_with_uninit, check_replace_with_default, h2, d1]
  · intro h2 hp
    refine ⟨?_, rfl⟩
    simp [MemReplace_check_expr, h1, check_replace_option_with_none,
      check_replace_with_uninit, check_replace_with_default, h2, d2, d3, hp]
  · intro h2 hp
    simp [MemReplace_check_expr, h1, check_replace_option_with_none,
      check_replace_with_uninit, check_replace_with_default, h2, d2, d3, hp]

theorem replace_with_uninit_zeroed_witness :
    (MemReplace_check_expr testCx (wCall wDestBorrow wSrcUninit) =
      [⟨MEM_REPLACE_WITH_UNINIT, cSpan 0 44, "replacing with `mem::uninitialized()`",
        some "consider using the `take_mut` crate instead", [], none⟩] ∧
      MEM_REPLACE_WITH_UNINIT.severity = "correctness") ∧
    (MemReplace_check_expr testCx (wCall wDestBorrow wSrcZeroed) =
      [⟨MEM_REPLACE_WITH_UNINIT, cSpan 0 44, "replacing with `mem::zeroed()`",
        some "consider using a default value or the `take_mut` crate instead", [], none⟩] ∧
      MEM_REPLACE_WITH_UNINIT.severity = "correctness") ∧
    MemReplace_check_expr testCxPrim (wCall wDestBorrow wSrcZeroed) = [] :=
  ⟨(replace_with_uninit_zeroed testCx fqMemReplace (.resolved false MEM_UNINITIALIZED)
      (cSpan 0 3) (cSpan 30 40) (cSpan 30 42) (cSpan 0 44) wDestBorrow rfl).1 rfl,
   (replace_with_uninit_zeroed testCx fqMemReplace (.resolved false MEM_ZEROED)
      (cSpan 0 3) (cSpan 30 40) (cSpan 30 42) (cSpan 0 44) wDestBorrow rfl).2.1 rfl rfl,
   (replace_with_uninit_zeroed testCxPrim fqMemReplace (.resolved false MEM_ZEROED)
      (cSpan 0 3) (cSpan 30 40) (cSpan 30 42) (cSpan 0 44) wDestBorrow rfl).2.2 rfl rfl⟩

/-- C10: for every call-expression node offered to the replace-rule group, at
most one of the three checks produces a finding: their trigger conditions are
pairwise disjoint, since the absent-value check needs a path `src`, the other
two need a call `src`, and the latter two need the inner callee to resolve to
distinct canonical paths. -/
theorem replace_checks_disjoint (cx : Context) (src dest : Expr) (sp : Span) :
    (check_replace_option_with_none cx src dest sp = [] ∨
      check_replace_with_uninit cx src sp = []) ∧
    (check_replace_option_with_none cx src dest sp = [] ∨
      check_replace_with_default cx src dest sp = []) ∧
    (check_replace_with_uninit cx src sp = [] ∨
      check_replace_with_default cx src dest sp = []) := by
  have d1 : ¬(DEFAULT_TRAIT_METHOD = MEM_UNINITIALIZED) := by decide
  have d2 : ¬(DEFAULT_TRAIT_METHOD = MEM_ZEROED) := by decide
  cases src with
  | path q qsp => exact ⟨Or.inr rfl, Or.inr rfl, Or.inl rfl⟩
  | call f args csp =>
    refine ⟨Or.inl rfl, Or.inl rfl, ?_⟩
    cases f with
    | path q qsp =>
      cases hres : cx.qpathRes q with
      | none => exact Or.inl (by simp [check_replace_with_uninit, hres])
      | some d =>
        by_cases hd : d = DEFAULT_TRAIT_METHOD
        · subst hd
          exact Or.inl (by simp [check_replace_with_uninit, hres, d1, d2])
        · exact Or.inr (by simp [check_replace_with_default, hres, hd])
    | call f2 a2 s2 => exact Or.inl (by simp [check_replace_with_uninit])
    | addrOf bk m e s2 => exact Or.inl (by simp [check_replace_with_uninit])
    | closure b s2 => exact Or.inl (by simp [check_replace_with_uninit])
    | lit s2 => exact Or.inl (by simp [check_replace_with_uninit])
    | other ch s2 => exact Or.inl (by simp [check_replace_with_uninit])
  | addrOf bk m e esp => exact ⟨Or.inl rfl, Or.inl rfl, Or.inl rfl⟩
  | closure b bsp => exact ⟨Or.inl rfl, Or.inl rfl, Or.inl rfl⟩
  | lit lsp => exact ⟨Or.inl rfl, Or.inl rfl, Or.inl rfl⟩
  | other ch osp => exact ⟨Or.inl rfl, Or.inl rfl, Or.inl rfl⟩

/-- C2: for a map-then-unwrap-or invocation whose receiver's static type is
the optional type: when the default argument's type is not trivially
duplicable and some identifier occurs in both the default expression and the
closure argument, no finding is produced; when the default's type is
trivially duplicable the identifier guard is skipped entirely, and (the
expansion-context guard passing) exactly one finding is produced regardless
of shared identifiers. -/
theorem map_unwrap_or_copy_guard (cx : Context)
    (expr map_recv map_arg unwrap_recv unwrap_arg : Expr) (map_span : Span)
    (hopt : cx.isOptionTy map_recv = true) :
    (cx.isCopy unwrap_arg = false → sharedIdent map_arg unwrap_arg = true →
      option_map_unwrap_or_lint cx expr [map_recv, map_arg]
        [unwrap_recv, unwrap_arg] map_span = []) ∧
    (cx.isCopy unwrap_arg = true →
      cx.differingExpCtxts unwrap_arg.span map_span = false →
      (option_map_unwrap_or_lint cx expr [map_recv, map_arg]
        [unwrap_recv, unwrap_arg] map_span).length = 1) := by
  constructor
  · intro hcopy hshared
    simp [option_map_unwrap_or_lint, hopt, hcopy, hshared]
  · intro hcopy hdiff
    simp only [option_map_unwrap_or_lint, List.getD_cons_zero, List.getD_cons_succ,
      hopt, hcopy, hdiff, Bool.not_true, Bool.false_and, Bool.false_eq_true,
      if_false, if_true]
    split <;> simp

theorem map_unwrap_or_copy_guard_witness :
    testCxNoCopy.isOptionTy cRecv = true ∧
    sharedIdent cMapArg cUArgShared = true ∧
    option_map_unwrap_or_lint testCxNoCopy cExpr [cRecv, cMapArg]
      [cURecv, cUArgShared] cMapSpan = [] ∧
    (option_map_unwrap_or_lint testCx cExpr [cRecv, cMapArg]
      [cURecv, cUArgShared] cMapSpan).length = 1 :=
  ⟨rfl, by decide,
   (map_unwrap_or_copy_guard testCxNoCopy cExpr cRecv cMapArg cURecv cUArgShared
      cMapSpan rfl).1 rfl (by decide),
   (map_unwrap_or_copy_guard testCx cExpr cRecv cMapArg cURecv cUArgShared
      cMapSpan rfl).2 rfl rfl⟩

/-- C6 (amended): every emitted map-then-unwrap-or finding targets
`and_then(f)` when the default snippet is the literal text "None" and
`map_or(default, f)` otherwise; its suggestion renames the map method-name
span to the target head, deletes the text between the end of the receiver
expression and the end of the whole expression, and, only in the `map_or`
case, inserts the default snippet followed by a separator immediately before
the closure argument. -/
theorem map_unwrap_or_suggestion (cx : Context)
    (expr map_recv map_arg unwrap_recv unwrap_arg : Expr) (map_span : Span)
    (hopt : cx.isOptionTy map_recv = true)
    (hcopy : cx.isCopy unwrap_arg = true)
    (hdiff : cx.differingExpCtxts unwrap_arg.span map_span = false) :
    option_map_unwrap_or_lint cx expr [map_recv, map_arg]
        [unwrap_recv, unwrap_arg] map_span =
      [⟨OPTION_MAP_UNWRAP_OR, expr.span,
        "called `map(f).unwrap_or(" ++
          (if cx.snippet unwrap_arg.span = "None" then "None" else "a") ++
          ")` on an Option value. This can be done more directly by calling `" ++
          (if cx.snippet unwrap_arg.span = "None" then "and_then(f)" else "map_or(a, f)") ++
          "` instead",
        some ("use `" ++
          (if cx.snippet unwrap_arg.span = "None" then "and_then(f)" else "map_or(a, f)") ++
          "` instead"),
        (if cx.snippet unwrap_arg.span = "None" then
          [⟨map_span, "and_then"⟩, ⟨expr.span.withLo unwrap_recv.span.hi, ""⟩]
        else
          [⟨map_span, "map_or"⟩, ⟨expr.span.withLo unwrap_recv.span.hi, ""⟩,
           ⟨map_arg.span.withHi map_arg.span.lo, cx.snippet unwrap_arg.span ++ ", "⟩]),
        some .machineApplicable⟩] := by
  by_cases hsnip : cx.snippet unwrap_arg.span = "None"
  · simp [option_map_unwrap_or_lint, hopt, hcopy, hdiff, hsnip]
  · simp [option_map_unwrap_or_lint, hopt, hcopy, hdiff, hsnip]

theorem map_unwrap_or_suggestion_witness :
    option_map_unwrap_or_lint testCx cExpr [cRecv, cMapArg]
      [cURecv, cUArg] cMapSpan = [cFinding] :=
  (map_unwrap_or_suggestion testCx cExpr cRecv cMapArg cURecv cUArg cMapSpan
    rfl rfl rfl).trans (by decide)

/-- C6 (counterexample): on the fixture invocation with default snippet "0"
(receiver `opt.map(f)` ending at offset 10, default argument starting at
offset 20, whole expression ending at offset 30) the emitted suggestion's
deletion edit spans offsets 10 to 30 — up to the end of the whole expression —
and no edit deletes only offsets 10 to 20 as the claim's wording (end of
receiver to start of the unwrap-or argument) would require. -/
theorem map_unwrap_or_delete_span_counterexample :
    option_map_unwrap_or_lint testCx cExpr [cRecv, cMapArg]
      [cURecv, cUArg] cMapSpan = [cFinding] ∧
    cURecv.span.hi = 10 ∧ cUArg.span.lo = 20 ∧ cExpr.span.hi = 30 ∧
    Edit.mk (cSpan 10 30) "" ∈ cFinding.edits ∧
    Edit.mk (cSpan 10 20) "" ∉ cFinding.edits := by
  refine ⟨by decide, rfl, rfl, rfl, by decide, by decide⟩

end Clippy
